import Mathlib

/-!
Verification development for the Crystal Router exchange of the hipBone
gather-scatter library (src/libs/ogs/ogsCrystalRouter.cpp).

The C++ code is shallowly embedded below.  Machine integers (int, dlong)
stay well inside 32 bits in this component, so they are modelled as Nat
(ranks, counts, offsets) and Int (signed node ids and signs).  MPI
point-to-point traffic is modelled by a synchronous global round: every
rank posts exactly one send to its partner per round and the matching
receive is read off directly from the sending rank, which is the unique
execution of the deterministic program.  std::sort is unstable, leaving
the order of tied elements unspecified; the embedding fixes one valid
execution by using the stable insertion sort on the same comparator.
All definitions are structurally recursive so that concrete runs reduce
inside the kernel.
-/

/-- One parallelNode_t record (ogsUtils.hpp): compact id for the current
fold round, signed base (group) id, sign, destination rank and the
stable position used to restore the pre-sort order. -/
structure PNode where
  newId : Int
  baseId : Int
  sign : Int
  rank : Nat
  localId : Nat
deriving DecidableEq, Inhabited

/-- Grouping key used throughout the constructor: abs(baseId). -/
def pKey (x : PNode) : Nat := x.baseId.natAbs

/-- Bool test for a positively signed record (sign > 0 in the code). -/
def posNode (x : PNode) : Bool := decide (0 < x.sign)

/-- Helper for splitting a list into maximal runs of equal abs(baseId):
either extend the current first run or open a new one. -/
def addToRuns (x : PNode) (rs : List (List PNode)) : List (List PNode) :=
  match rs with
  | [] => [[x]]
  | g :: t =>
    match g with
    | [] => [x] :: t
    | y :: g0 => if pKey x = pKey y then (x :: y :: g0) :: t else [x] :: (y :: g0) :: t

/-- The decomposition of a node list into maximal adjacent groups of one
abs(baseId), as scanned by the loops of the constructor that detect a
group end at a change of abs(baseId). -/
def groupRuns (l : List PNode) : List (List PNode) := l.foldr addToRuns []

/-- Lines 666-674: scan one abs(baseId) group for the first positive
sign and, when found, write that sign into every member. -/
def propagateGroup (g : List PNode) : List PNode :=
  match g.find? posNode with
  | some p => g.map (fun y => { y with sign := p.sign })
  | none => g

/-- Lines 660-677: the sign-propagation pass over a node list, applied
group by group. -/
def signPropagate (l : List PNode) : List PNode :=
  ((groupRuns l).map propagateGroup).flatten

/-- Scan continuation for groupFirsts: keep the records that open a new
abs(baseId) group relative to their predecessor. -/
def groupFirstsAux (k : Nat) : List PNode → List PNode
  | [] => []
  | y :: ys =>
    if pKey y = k then groupFirstsAux (pKey y) ys else y :: groupFirstsAux (pKey y) ys

/-- The records at positions n with n == 0 or abs(baseId) differing from
position n-1, i.e. one representative per adjacent duplicate group; this
is the loop pattern of lines 335-340, 348-354 and the gather scans. -/
def groupFirsts : List PNode → List PNode
  | [] => []
  | x :: xs => x :: groupFirstsAux (pKey x) xs

/-- Lines 335-344 (transposed direction): number of entries extracted
from the halo buffer, one per duplicate group of the send list. -/
def sendCountT (l : List PNode) : Nat := (groupFirsts l).length

/-- Lines 335-344 (forward direction): only positively signed group
representatives are extracted. -/
def sendCountN (l : List PNode) : Nat := ((groupFirsts l).filter posNode).length

/-- Lines 348-354: send index list for the transposed schedule. -/
def sendIdsT (l : List PNode) : List Int := (groupFirsts l).map (fun x => x.newId)

/-- Lines 348-354: send index list for the forward schedule. -/
def sendIdsN (l : List PNode) : List Int :=
  ((groupFirsts l).filter posNode).map (fun x => x.newId)

/-- Whether a group (scanned in sorted order) is new to the extended
halo: its leading id is at least Nhalo or is the wiped id -1
(line 442 and line 473). -/
def isNewGroup (Nh : Nat) (g : List PNode) : Bool :=
  match g with
  | [] => false
  | x :: _ => decide ((Nh : Int) ≤ x.newId ∨ x.newId = -1)

/-- Whether some member of a group carries a positive sign. -/
def hasPos (g : List PNode) : Bool := g.any posNode

/-- Lines 474-480: the sign variable after scanning a group, the first
positive sign if any, otherwise -2. -/
def groupSign (g : List PNode) : Int :=
  match g.find? posNode with
  | some x => x.sign
  | none => -2

/-- Number of new groups that contain a positive record (the NhaloExtN
count of lines 430-453). -/
def countNewPos (Nh : Nat) (runs : List (List PNode)) : Nat :=
  (runs.filter (fun g => isNewGroup Nh g && hasPos g)).length

/-- Number of new groups without a positive record. -/
def countNewNeg (Nh : Nat) (runs : List (List PNode)) : Nat :=
  (runs.filter (fun g => isNewGroup Nh g && !hasPos g)).length

/-- State threaded by the id-assignment pass of lines 459-497. -/
structure AssignState where
  extN : Nat
  extT : Nat
  imap : Nat → Int
  acc : List PNode

/-- Lines 463-497 for one abs(baseId) group: a new group takes the next
id from the positive or the negative range and records its original id
in indexMap; every member receives the group id. -/
def assignGroup (Nh : Nat) (s : AssignState) (g : List PNode) : AssignState :=
  match g with
  | [] => s
  | x :: _ =>
    let id0 := x.newId
    if (Nh : Int) ≤ id0 ∨ id0 = -1 then
      if 0 < groupSign g then
        { extN := s.extN + 1, extT := s.extT,
          imap := fun m => if m = s.extN - Nh then id0 else s.imap m,
          acc := s.acc ++ g.map (fun y => { y with newId := (s.extN : Int) }) }
      else
        { extN := s.extN, extT := s.extT + 1,
          imap := fun m => if m = s.extT - Nh then id0 else s.imap m,
          acc := s.acc ++ g.map (fun y => { y with newId := (s.extT : Int) }) }
    else
      { s with acc := s.acc ++ g.map (fun y => { y with newId := id0 }) }

/-- Comparator of the sort at lines 421-427: group by abs(baseId),
larger newId first inside a group. -/
def baseOrder (a b : PNode) : Prop :=
  pKey a < pKey b ∨ (pKey a = pKey b ∧ b.newId ≤ a.newId)

instance : DecidableRel baseOrder := fun a b => by unfold baseOrder; infer_instance

/-- Comparator of the sorts at lines 253-256 and 655-658. -/
def newIdOrder (a b : PNode) : Prop := a.newId ≤ b.newId

instance : DecidableRel newIdOrder := fun a b => by unfold newIdOrder; infer_instance

/-- Comparator of the permute call at line 500 that restores the order
recorded in localId. -/
def localOrder (a b : PNode) : Prop := a.localId ≤ b.localId

instance : DecidableRel localOrder := fun a b => by unfold localOrder; infer_instance

/-- One valid execution of the std::sort at lines 421-427. -/
def sortByBase (l : List PNode) : List PNode := List.insertionSort baseOrder l

/-- One valid execution of the std::sort at lines 253-256 / 655-658. -/
def sortByNew (l : List PNode) : List PNode := List.insertionSort newIdOrder l

/-- The permute at line 500 (localIds are distinct positions). -/
def sortByLocal (l : List PNode) : List PNode := List.insertionSort localOrder l

/-- Result of the dedup-and-renumber phase of lines 417-500. -/
structure RenResult where
  nodes : List PNode
  extN : Nat
  extT : Nat
  imap : Nat → Int

/-- Lines 417-500: sort by abs(baseId) (larger newId first), walk the
groups assigning extended-halo ids (positive groups first), record the
original leading ids in indexMap, and restore the original order. -/
def renumber (Nh : Nat) (l : List PNode) : RenResult :=
  let runs := groupRuns (sortByBase l)
  let s := runs.foldl (assignGroup Nh)
    { extN := Nh, extT := Nh + countNewPos Nh runs, imap := fun _ => 0, acc := [] }
  { nodes := sortByLocal s.acc, extN := s.extN, extT := s.extT, imap := s.imap }

/-- Line 355: the newId of every node shipped to the partner is wiped
to -1 before sending. -/
def wipeIds (l : List PNode) : List PNode := l.map (fun x => { x with newId := -1 })

/-- Line 418: record the current position of every node in localId. -/
def setLocalIds (l : List PNode) : List PNode :=
  l.enum.map (fun p => { p.2 with localId := p.1 })

/-- Pivot of the fold window: line 209 / 265, r_half = (np+1)/2 + offset. -/
def rHalf (np off : Nat) : Nat := (np + 1) / 2 + off

/-- Line 269: the mirror position inside the window [offset, offset+np). -/
def crMirror (np off rank : Nat) : Nat := np - 1 - (rank - off) + off

/-- Lines 269-274: the communication partner; the boundary rank whose
mirror is itself is redirected to r_half. -/
def crPartner (np off rank : Nat) : Nat :=
  if crMirror np off rank = rank then rHalf np off else crMirror np off rank

/-- Lines 270-277: number of messages received this round (0, 1 or 2). -/
def crNmsg (np off rank : Nat) : Nat :=
  if crMirror np off rank = rank then 0
  else if np % 2 = 1 ∧ rank = rHalf np off then 2 else 1

/-- Nodes whose destination rank lies in the lo half (rank < r_half). -/
def loPart (rh : Nat) (l : List PNode) : List PNode :=
  l.filter (fun x => decide (x.rank < rh))

/-- Nodes whose destination rank lies in the hi half. -/
def hiPart (rh : Nat) (l : List PNode) : List PNode :=
  l.filter (fun x => !decide (x.rank < rh))

/-- Lines 292 and 330: the half of the node list handed to the partner
of rank r. -/
def crSendList (rh r : Nat) (l : List PNode) : List PNode :=
  if r < rh then hiPart rh l else loPart rh l

/-- Lines 326-329: the half of the node list kept by rank r. -/
def crKeepList (rh r : Nat) (l : List PNode) : List PNode :=
  if r < rh then loPart rh l else hiPart rh l

/-- Group representatives of the kept prefix that live in the extended
halo, scanned at lines 534-542 / 594-604. -/
def gatherLocalFirsts (Nh offK : Nat) (renNodes : List PNode) : List PNode :=
  (groupFirsts (renNodes.take offK)).filter (fun x => decide ((Nh : Int) ≤ x.newId))

/-- Group representatives of the two received segments, scanned at lines
545-559 / 611-629; the group detection restarts at each segment. -/
def gatherRecvFirsts (offK nR0 : Nat) (renNodes : List PNode) : List PNode :=
  groupFirsts ((renNodes.drop offK).take nR0) ++ groupFirsts (renNodes.drop (offK + nR0))

/-- Column list of row r of the transposed gather operator: the identity
column for the surviving halo rows (lines 525, 579-581), then the
indexMap columns of local extended-halo groups (line 601), then the
receive-buffer positions in scan order (lines 617, 627). -/
def gatherRowT (Nh recvOff : Nat) (imap : Nat → Int) (locF recvF : List PNode)
    (r : Nat) : List Int :=
  (if r < Nh then [(r : Int)] else [])
    ++ ((locF.filter (fun x => x.newId == (r : Int))).map
          (fun x => imap (x.newId.toNat - Nh)))
    ++ (((recvF.enum.filter (fun ix => ix.2.newId == (r : Int)))).map
          (fun ix => ((recvOff + ix.1 : Nat) : Int)))

/-- Column list of row r of the forward gather operator: identity
columns for NhaloP rows at the first level and for Nhalo rows later
(lines 527-531, 583-591), and only positively signed contributions
(lines 538, 548, 556, 598, 614, 624). -/
def gatherRowN (isFirst : Bool) (NhP Nh recvOff : Nat) (imap : Nat → Int)
    (locF recvF : List PNode) (r : Nat) : List Int :=
  (if (if isFirst then r < NhP else r < Nh) then [(r : Int)] else [])
    ++ (((locF.filter posNode).filter (fun x => x.newId == (r : Int))).map
          (fun x => imap (x.newId.toNat - Nh)))
    ++ ((((recvF.filter posNode).enum.filter (fun ix => ix.2.newId == (r : Int)))).map
          (fun ix => ((recvOff + ix.1 : Nat) : Int)))

/-- One crLevel record (ogsExchange.hpp) as filled by the constructor,
with the embedded gather operator kept as its per-row column lists. -/
structure CrLevel where
  partner : Nat
  Nmsg : Nat
  Nsend : Nat
  sendIds : List Int
  Nrecv0 : Nat
  Nrecv1 : Nat
  recvOffset : Nat
  Nrows : Nat
  gatherRow : Nat → List Int

/-- Per-rank state carried between fold rounds: the live node list and
the extended-halo sizes NhaloExtN / NhaloExtT. -/
structure RankState where
  nodes : List PNode
  extN : Nat
  extT : Nat

/-- One fold round of the constructor body (lines 263-687) on rank r
with window (np, off), reading the states of all ranks: computes the
levels recorded in levelsN / levelsT and the state for the next round.
Receive data is read directly from the sending rank. -/
def crRoundCore (size Nh NhP np off r : Nat) (σ : Nat → RankState) :
    (CrLevel × CrLevel) × RankState :=
  let rh := rHalf np off
  let p := crPartner np off r
  let m := crNmsg np off r
  let st := σ r
  let send := crSendList rh r st.nodes
  let keep := crKeepList rh r st.nodes
  let recv0raw := if 0 < m then crSendList rh p ((σ p).nodes) else []
  let recv1raw := if m = 2 then crSendList rh (rh - 1) ((σ (rh - 1)).nodes) else []
  let recv0 := wipeIds recv0raw
  let recv1 := wipeIds recv1raw
  let merged := setLocalIds (keep ++ recv0 ++ recv1)
  let ren := renumber Nh merged
  let offK := keep.length
  let nR0 := recv0.length
  let locF := gatherLocalFirsts Nh offK ren.nodes
  let recvF := gatherRecvFirsts offK nR0 ren.nodes
  let lvlN : CrLevel :=
    { partner := p, Nmsg := m,
      Nsend := sendCountN send, sendIds := sendIdsN send,
      Nrecv0 := sendCountN recv0raw, Nrecv1 := sendCountN recv1raw,
      recvOffset := st.extN, Nrows := ren.extN,
      gatherRow := gatherRowN (decide (np = size)) NhP Nh st.extN ren.imap locF recvF }
  let lvlT : CrLevel :=
    { partner := p, Nmsg := m,
      Nsend := sendCountT send, sendIds := sendIdsT send,
      Nrecv0 := sendCountT recv0raw, Nrecv1 := sendCountT recv1raw,
      recvOffset := st.extT, Nrows := ren.extT,
      gatherRow := gatherRowT Nh st.extT ren.imap locF recvF }
  ((lvlN, lvlT),
   { nodes := signPropagate (sortByNew ren.nodes), extN := ren.extN, extT := ren.extT })

/-- Lines 213-219 / 679-685: how the fold window of a rank shrinks after
one round; a window of size one is final. -/
def foldStep (rank : Nat) (w : Nat × Nat) : Nat × Nat :=
  if w.1 ≤ 1 then w
  else if rank < rHalf w.1 w.2 then ((w.1 + 1) / 2, w.2)
  else (w.1 - (w.1 + 1) / 2, rHalf w.1 w.2)

/-- The fold window (np, np_offset) of a rank after t rounds, starting
from (NP, 0). -/
def crWindowAt (size rank : Nat) : Nat → Nat × Nat
  | 0 => (size, 0)
  | t + 1 => foldStep rank (crWindowAt size rank t)

/-- One global round: a rank whose window has shrunk to one process is
done and emits no level; the others execute the constructor round. -/
def crRound (size : Nat) (NhM NhPM : Nat → Nat) (t : Nat) (σ : Nat → RankState)
    (r : Nat) : Option (CrLevel × CrLevel) × RankState :=
  let w := crWindowAt size r t
  if w.1 ≤ 1 then (none, σ r)
  else
    let res := crRoundCore size (NhM r) (NhPM r) w.1 w.2 r σ
    (some res.1, res.2)

/-- Lines 236-241: seed records for the local halo rows, positive sign 2
for the owned rows, -2 for the rest, baseId 0, destination this rank. -/
def crOwnNodes (rank Nhalo NhaloP : Nat) : List PNode :=
  (List.range Nhalo).map (fun n =>
    { newId := (n : Int), baseId := 0,
      sign := if n < NhaloP then 2 else -2, rank := rank, localId := 0 })

/-- Lines 242-250: the first shared record of a row donates its
abs(baseId) to the seed record, signed by ownership; later records of
the same row are ignored (baseId already set).  The C++ code indexes
nodes[newId] without a bound check; the embedding drops an out-of-range
write, which is the only defined reading. -/
def crSeedBase (NhaloP : Nat) (own : List PNode) (shared : List PNode) : List PNode :=
  shared.foldl (fun l s =>
    let i := s.newId.toNat
    match l.get? i with
    | some nd =>
      if nd.baseId = 0 then
        l.set i { nd with baseId :=
          if s.newId < (NhaloP : Int) then (s.baseId.natAbs : Int)
          else -(s.baseId.natAbs : Int) }
      else l
    | none => l) own

/-- Lines 231-256: build and sort the initial node list of one rank from
its shared-node descriptors. -/
def crInitNodes (rank Nhalo NhaloP : Nat) (shared : List PNode) : List PNode :=
  sortByNew (crSeedBase NhaloP (crOwnNodes rank Nhalo NhaloP) shared ++ shared)

/-- Lines 231-258 perform no validation of the descriptor grouping and
have no error path: setup always produces a node list.  The Option
wrapper records the absence of a failure outcome. -/
def crSetup (rank Nhalo NhaloP : Nat) (shared : List PNode) : Option (List PNode) :=
  some (crInitNodes rank Nhalo NhaloP shared)

/-- Initial per-rank state: lines 258-261, NhaloExtN = NhaloExtT = Nhalo. -/
def crInit (NhM NhPM : Nat → Nat) (sh : Nat → List PNode) : Nat → RankState :=
  fun r => { nodes := crInitNodes r (NhM r) (NhPM r) (sh r), extN := NhM r, extT := NhM r }

/-- The global state after t rounds. -/
def crSigma (size : Nat) (NhM NhPM : Nat → Nat) (sh : Nat → List PNode) :
    Nat → Nat → RankState
  | 0 => crInit NhM NhPM sh
  | t + 1 => fun r => (crRound size NhM NhPM t (crSigma size NhM NhPM sh t) r).2

/-- The level pair (levelsN entry, levelsT entry) built by rank r in
round t, none once its window is a single process. -/
def crLevelsAt (size : Nat) (NhM NhPM : Nat → Nat) (sh : Nat → List PNode)
    (t r : Nat) : Option (CrLevel × CrLevel) :=
  (crRound size NhM NhPM t (crSigma size NhM NhPM sh t) r).1

/-- Fueled ceiling base-2 logarithm; the fuel n always suffices. -/
def ceilLog2F : Nat → Nat → Nat
  | 0, _ => 0
  | f + 1, n => if n ≤ 1 then 0 else ceilLog2F f ((n + 1) / 2) + 1

/-- Ceiling base-2 logarithm, the bound on the number of fold rounds. -/
def ceilLog2 (n : Nat) : Nat := ceilLog2F n n

/-- The ordered level pairs of rank r: the schedule the constructor
stores in levelsN / levelsT. -/
def crLevels (size : Nat) (NhM NhPM : Nat → Nat) (sh : Nat → List PNode)
    (r : Nat) : List (CrLevel × CrLevel) :=
  (List.range (ceilLog2 size)).filterMap (fun t => crLevelsAt size NhM NhPM sh t r)

/-- Lines 690-693: the send ceiling, a maximum over the transposed
schedule only. -/
def crNsendMax (lvls : List (CrLevel × CrLevel)) : Nat :=
  lvls.foldl (fun m pr => max m pr.2.Nsend) 0

/-- Lines 694-696: the receive ceiling, a maximum of
recvOffset + Nrecv0 + Nrecv1 over the transposed schedule only. -/
def crNrecvMax (lvls : List (CrLevel × CrLevel)) : Nat :=
  lvls.foldl (fun m pr => max m (pr.2.recvOffset + pr.2.Nrecv0 + pr.2.Nrecv1)) 0

/-- The counting loop of lines 204-221 (fueled; the fuel np suffices
because the window shrinks every iteration). -/
def crNlevelsF : Nat → Nat → Nat → Nat → Nat
  | 0, _, _, _ => 0
  | f + 1, np, off, rank =>
    if np ≤ 1 then 0
    else if rank < rHalf np off then crNlevelsF f ((np + 1) / 2) off rank + 1
    else crNlevelsF f (np - (np + 1) / 2) (rHalf np off) rank + 1

/-- Nlevels as counted by the first loop of the constructor for a given
process count and rank. -/
def crNlevels (np rank : Nat) : Nat := crNlevelsF np np 0 rank

/-- The per-round (partner, Nmsg) pairs along the fold path of a rank
(lines 263-281 plus the window update), fueled like crNlevelsF. -/
def crFoldLevelsF : Nat → Nat → Nat → Nat → List (Nat × Nat)
  | 0, _, _, _ => []
  | f + 1, np, off, rank =>
    if np ≤ 1 then []
    else
      (crPartner np off rank, crNmsg np off rank) ::
        (if rank < rHalf np off then crFoldLevelsF f ((np + 1) / 2) off rank
         else crFoldLevelsF f (np - (np + 1) / 2) (rHalf np off) rank)

/-- The (partner, Nmsg) schedule of a rank starting from (NP, 0). -/
def crFoldLevels (np rank : Nat) : List (Nat × Nat) := crFoldLevelsF np np 0 rank

/-- The Transpose argument of Start / Finish. -/
inductive CrTrans where
  | NoTrans
  | Trans
deriving DecidableEq

/-- Observable behaviour of one Finish call (lines 61-156): how many
halo rows are staged before the loop, which schedule is driven, the
value contents of the halo buffer after the per-level loop, and how many
rows the final copy-back covers. -/
structure CrFinishTrace (α : Type) where
  stagedRows : Nat
  levels : List CrLevel
  result : List α
  copyBackRows : Nat

/-- Line 46: Start stages NhaloP rows in the forward direction and Nhalo
rows in the transposed direction. -/
def crStartRows (trans : CrTrans) (NhaloP Nhalo : Nat) : Nat :=
  if trans = CrTrans.NoTrans then NhaloP else Nhalo

/-- Lines 61-156: Finish selects levelsN or levelsT by direction
(lines 83-87), then per level receives into the current halo buffer at
recvOffset (lines 100-109), rotates buffers (129-134) and gathers the
received buffer into the rotated halo buffer (136-143); the values per
halo row are abstracted over the element type and field width, the
external Gather engine over gatherFn, and the incoming message data of
level i over recv i.  After the loop the copy-back covers the opposite
halo extent (line 146). -/
def crFinish (α : Type) (k : Nat) (trans : CrTrans) (NhaloP Nhalo : Nat)
    (levelsN levelsT : List CrLevel) (gatherFn : CrLevel → List α → List α)
    (recv : Nat → List α) (halo : List α) : CrFinishTrace α :=
  let lvls := if trans = CrTrans.NoTrans then levelsN else levelsT
  { stagedRows := if trans = CrTrans.NoTrans then NhaloP else Nhalo
    levels := lvls
    result := lvls.enum.foldl
      (fun h il => gatherFn il.2 (h.take il.2.recvOffset ++ recv il.1)) halo
    copyBackRows := if trans = CrTrans.Trans then NhaloP else Nhalo }

/-- Byte capacities of the scratch buffers of one exchange object: the
send buffer and the two halves of the halo double buffer. -/
structure CrBufState where
  sendCap : Nat
  buf0Cap : Nat
  buf1Cap : Nat
deriving DecidableEq

/-- Lines 703-721: grow the send buffer when NsendMax*Nbytes exceeds its
current size, and both halo buffers when NrecvMax*Nbytes exceeds the
size of the first; nothing ever shrinks. -/
def AllocBuffer (NsendMax NrecvMax Nbytes : Nat) (s : CrBufState) : CrBufState :=
  let s1 :=
    if s.sendCap < NsendMax * Nbytes then { s with sendCap := NsendMax * Nbytes } else s
  if s1.buf0Cap < NrecvMax * Nbytes then
    { s1 with buf0Cap := NrecvMax * Nbytes, buf1Cap := NrecvMax * Nbytes }
  else s1

/-- A fresh exchange object holds no scratch storage. -/
def crBufInit : CrBufState := { sendCap := 0, buf0Cap := 0, buf1Cap := 0 }

/-- Modelled from the spec (section 7): a shared-node descriptor list is
malformed when a group id is missing (baseId 0) or two descriptors of
one local row disagree on abs(baseId). -/
def specMalformedShared (shared : List PNode) : Prop :=
  (∃ a ∈ shared, a.baseId = 0) ∨
    ∃ a ∈ shared, ∃ b ∈ shared, a.newId = b.newId ∧ pKey a ≠ pKey b

/-- Default level used with getD when indexing a schedule. -/
def dfltLevel : CrLevel :=
  { partner := 0, Nmsg := 0, Nsend := 0, sendIds := [], Nrecv0 := 0, Nrecv1 := 0,
    recvOffset := 0, Nrows := 0, gatherRow := fun _ => [] }

/-- Default level pair. -/
def dfltPair : CrLevel × CrLevel := (dfltLevel, dfltLevel)

/-- A two-rank demonstration topology: one halo row per rank. -/
def demoNh : Nat → Nat := fun _ => 1

/-- Owned-row counts of the demonstration topology. -/
def demoNhP : Nat → Nat := fun _ => 1

/-- Shared-node descriptors of the demonstration topology: each rank
shares its row 0 with the other rank under group id 7. -/
def demoSh : Nat → List PNode := fun r =>
  if r = 0 then [{ newId := 0, baseId := 7, sign := 1, rank := 1, localId := 0 }]
  else [{ newId := 0, baseId := -7, sign := -1, rank := 0, localId := 0 }]

/-- An inconsistent descriptor list: two records of row 0 disagree on
abs(baseId) and a third has no group id at all. -/
def demoBadShared : List PNode :=
  [{ newId := 0, baseId := 5, sign := 1, rank := 1, localId := 0 },
   { newId := 0, baseId := 7, sign := 1, rank := 1, localId := 0 },
   { newId := 0, baseId := 0, sign := -1, rank := 1, localId := 0 }]

/-- Demonstration node list for the sign-propagation pass: group 4 has a
positive member, group 9 has none. -/
def demoSigns : List PNode :=
  [{ newId := 0, baseId := 4, sign := -1, rank := 0, localId := 0 },
   { newId := 0, baseId := -4, sign := 2, rank := 1, localId := 1 },
   { newId := 1, baseId := 9, sign := -2, rank := 0, localId := 2 },
   { newId := 1, baseId := -9, sign := -1, rank := 1, localId := 3 }]

/-- A well-formed run: nonempty, all members sharing one key. -/
def RunWF (g : List PNode) (k : Nat) : Prop := g ≠ [] ∧ ∀ x ∈ g, pKey x = k

/-- Chained well-formedness of a run decomposition: every run nonempty
with a constant key, adjacent runs with different keys, and the first
run differing from the given previous key (none for the start). -/
def RunsWFFrom : Option Nat → List (List PNode) → Prop
  | _, [] => True
  | prev, g :: t => ∃ k, RunWF g k ∧ prev ≠ some k ∧ RunsWFFrom (some k) t

/-- The head of the list, when there is one, has a key different from k. -/
def FirstNe (k : Nat) (m : List PNode) : Prop := ∀ z zs, m = z :: zs → pKey z ≠ k

/-! ## Helper lemmas -/

theorem allocBuffer_sendCap (a b nb : Nat) (s : CrBufState) :
    (AllocBuffer a b nb s).sendCap = if s.sendCap < a * nb then a * nb else s.sendCap := by
  simp only [AllocBuffer]
  split <;> split <;> rfl

theorem allocBuffer_buf0Cap (a b nb : Nat) (s : CrBufState) :
    (AllocBuffer a b nb s).buf0Cap = if s.buf0Cap < b * nb then b * nb else s.buf0Cap := by
  simp only [AllocBuffer]
  split <;> split <;> rfl

theorem allocBuffer_buf1Cap (a b nb : Nat) (s : CrBufState) :
    (AllocBuffer a b nb s).buf1Cap = if s.buf0Cap < b * nb then b * nb else s.buf1Cap := by
  simp only [AllocBuffer]
  split <;> split <;> rfl

theorem allocBuffer_mono (a b nb : Nat) (s : CrBufState) (h : s.buf0Cap = s.buf1Cap) :
    s.sendCap ≤ (AllocBuffer a b nb s).sendCap ∧
    s.buf0Cap ≤ (AllocBuffer a b nb s).buf0Cap ∧
    s.buf1Cap ≤ (AllocBuffer a b nb s).buf1Cap := by
  rw [allocBuffer_sendCap, allocBuffer_buf0Cap, allocBuffer_buf1Cap]
  refine ⟨?_, ?_, ?_⟩ <;> split <;> omega

theorem allocBuffer_pair (a b nb : Nat) (s : CrBufState) (h : s.buf0Cap = s.buf1Cap) :
    (AllocBuffer a b nb s).buf0Cap = (AllocBuffer a b nb s).buf1Cap := by
  rw [allocBuffer_buf0Cap, allocBuffer_buf1Cap]
  split <;> omega

theorem foldAlloc_mono (a b : Nat) : ∀ (szs : List Nat) (s : CrBufState),
    s.buf0Cap = s.buf1Cap →
    s.sendCap ≤ (szs.foldl (fun st x => AllocBuffer a b x st) s).sendCap ∧
    s.buf0Cap ≤ (szs.foldl (fun st x => AllocBuffer a b x st) s).buf0Cap ∧
    s.buf1Cap ≤ (szs.foldl (fun st x => AllocBuffer a b x st) s).buf1Cap := by
  intro szs
  induction szs with
  | nil => intro s _; exact ⟨le_refl _, le_refl _, le_refl _⟩
  | cons hd tl ih =>
    intro s hp
    have h1 := allocBuffer_mono a b hd s hp
    have h2 := ih (AllocBuffer a b hd s) (allocBuffer_pair a b hd s hp)
    simp only [List.foldl_cons]
    exact ⟨le_trans h1.1 h2.1, le_trans h1.2.1 h2.2.1, le_trans h1.2.2 h2.2.2⟩

theorem foldAlloc_pair (a b : Nat) : ∀ (szs : List Nat) (s : CrBufState),
    s.buf0Cap = s.buf1Cap →
    (szs.foldl (fun st x => AllocBuffer a b x st) s).buf0Cap =
      (szs.foldl (fun st x => AllocBuffer a b x st) s).buf1Cap := by
  intro szs
  induction szs with
  | nil => intro s h; exact h
  | cons hd tl ih =>
    intro s h
    simp only [List.foldl_cons]
    exact ih _ (allocBuffer_pair a b hd s h)

theorem foldAlloc_covers (a b : Nat) : ∀ (szs : List Nat) (s : CrBufState),
    s.buf0Cap = s.buf1Cap → ∀ nb ∈ szs,
    a * nb ≤ (szs.foldl (fun st x => AllocBuffer a b x st) s).sendCap ∧
    b * nb ≤ (szs.foldl (fun st x => AllocBuffer a b x st) s).buf0Cap ∧
    b * nb ≤ (szs.foldl (fun st x => AllocBuffer a b x st) s).buf1Cap := by
  intro szs
  induction szs with
  | nil => intro s _ nb hnb; exact absurd hnb (List.not_mem_nil nb)
  | cons hd tl ih =>
    intro s hpair nb hnb
    simp only [List.foldl_cons]
    rcases List.mem_cons.mp hnb with heq | hmem
    · subst heq
      have hstep : a * nb ≤ (AllocBuffer a b nb s).sendCap ∧
          b * nb ≤ (AllocBuffer a b nb s).buf0Cap ∧
          b * nb ≤ (AllocBuffer a b nb s).buf1Cap := by
        rw [allocBuffer_sendCap, allocBuffer_buf0Cap, allocBuffer_buf1Cap]
        refine ⟨?_, ?_, ?_⟩ <;> split <;> omega
      have hrest := foldAlloc_mono a b tl (AllocBuffer a b nb s)
        (allocBuffer_pair a b nb s hpair)
      exact ⟨le_trans hstep.1 hrest.1, le_trans hstep.2.1 hrest.2.1,
        le_trans hstep.2.2 hrest.2.2⟩
    · exact ih (AllocBuffer a b hd s) (allocBuffer_pair a b hd s hpair) nb hmem

theorem ceilLog2F_eq_clog : ∀ (f n : Nat), n ≤ f → ceilLog2F f n = Nat.clog 2 n := by
  intro f
  induction f with
  | zero =>
    intro n hn
    have h0 : n = 0 := Nat.le_zero.mp hn
    subst h0
    simp [ceilLog2F]
  | succ f ih =>
    intro n hn
    by_cases h1 : n ≤ 1
    · interval_cases n <;> simp [ceilLog2F]
    · have h2 : 2 ≤ n := by omega
      have hstep : ceilLog2F (f + 1) n = ceilLog2F f ((n + 1) / 2) + 1 := by
        simp [ceilLog2F, h1]
      rw [hstep, ih ((n + 1) / 2) (by omega), Nat.clog_of_two_le (by norm_num) h2]
      rfl

theorem crNlevelsF_le_clog : ∀ (f np off rank : Nat), np ≤ f →
    crNlevelsF f np off rank ≤ Nat.clog 2 np := by
  intro f
  induction f with
  | zero =>
    intro np off rank h
    have h0 : np = 0 := Nat.le_zero.mp h
    subst h0
    simp [crNlevelsF]
  | succ f ih =>
    intro np off rank h
    by_cases h1 : np ≤ 1
    · simp [crNlevelsF, h1]
    · have h2 : 2 ≤ np := by omega
      have hclog : Nat.clog 2 np = Nat.clog 2 ((np + 1) / 2) + 1 :=
        Nat.clog_of_two_le (by norm_num) h2
      by_cases hlo : rank < rHalf np off
      · have hstep : crNlevelsF (f + 1) np off rank =
            crNlevelsF f ((np + 1) / 2) off rank + 1 := by
          simp [crNlevelsF, h1, hlo]
        have hrec := ih ((np + 1) / 2) off rank (by omega)
        omega
      · have hstep : crNlevelsF (f + 1) np off rank =
            crNlevelsF f (np - (np + 1) / 2) (rHalf np off) rank + 1 := by
          simp [crNlevelsF, h1, hlo]
        have hrec := ih (np - (np + 1) / 2) (rHalf np off) rank (by omega)
        have hmono : Nat.clog 2 (np - (np + 1) / 2) ≤ Nat.clog 2 ((np + 1) / 2) :=
          Nat.clog_mono_right 2 (by omega)
        omega

theorem crNlevelsF_rank_zero : ∀ (f np : Nat), np ≤ f →
    crNlevelsF f np 0 0 = Nat.clog 2 np := by
  intro f
  induction f with
  | zero =>
    intro np h
    have h0 : np = 0 := Nat.le_zero.mp h
    subst h0
    simp [crNlevelsF]
  | succ f ih =>
    intro np h
    by_cases h1 : np ≤ 1
    · interval_cases np <;> simp [crNlevelsF]
    · have h2 : 2 ≤ np := by omega
      have hlo : 0 < rHalf np 0 := by unfold rHalf; omega
      have hstep : crNlevelsF (f + 1) np 0 0 = crNlevelsF f ((np + 1) / 2) 0 0 + 1 := by
        simp [crNlevelsF, h1, hlo]
      rw [hstep, ih ((np + 1) / 2) (by omega), Nat.clog_of_two_le (by norm_num) h2]
      rfl

theorem crFoldLevelsF_length : ∀ (f np off rank : Nat),
    (crFoldLevelsF f np off rank).length = crNlevelsF f np off rank := by
  intro f
  induction f with
  | zero => intro np off rank; rfl
  | succ f ih =>
    intro np off rank
    by_cases h1 : np ≤ 1
    · simp [crFoldLevelsF, crNlevelsF, h1]
    · by_cases hlo : rank < rHalf np off <;>
        simp [crFoldLevelsF, crNlevelsF, h1, hlo, ih]

theorem crFold_pow2 : ∀ (k : Nat), ∀ (f off rank : Nat), 2 ^ k ≤ f → off ≤ rank →
    rank < off + 2 ^ k →
    crNlevelsF f (2 ^ k) off rank = k ∧
    ∀ pm ∈ crFoldLevelsF f (2 ^ k) off rank, pm.2 = 1 := by
  intro k
  induction k with
  | zero =>
    intro f off rank hf _ _
    cases f with
    | zero => simp at hf
    | succ f =>
      constructor
      · simp [crNlevelsF]
      · intro pm hpm
        simp [crFoldLevelsF] at hpm
  | succ k ih =>
    intro f off rank hf hlo hhi
    have hm : 1 ≤ 2 ^ k := Nat.one_le_two_pow
    have hnp : 2 ^ (k + 1) = 2 * 2 ^ k := by rw [pow_succ]; ring
    cases f with
    | zero => omega
    | succ f =>
      have h1 : ¬ (2 ^ (k + 1) ≤ 1) := by omega
      have hhalf : (2 ^ (k + 1) + 1) / 2 = 2 ^ k := by omega
      have hsub : 2 ^ (k + 1) - (2 ^ (k + 1) + 1) / 2 = 2 ^ k := by omega
      have hrh : rHalf (2 ^ (k + 1)) off = 2 ^ k + off := by unfold rHalf; omega
      have hfuel : 2 ^ k ≤ f := by omega
      have hmirror : crMirror (2 ^ (k + 1)) off rank ≠ rank := by
        unfold crMirror; omega
      have hmsg : crNmsg (2 ^ (k + 1)) off rank = 1 := by
        unfold crNmsg
        rw [if_neg hmirror, if_neg]
        rintro ⟨hodd, -⟩
        omega
      by_cases hside : rank < rHalf (2 ^ (k + 1)) off
      · have hN : crNlevelsF (f + 1) (2 ^ (k + 1)) off rank =
            crNlevelsF f (2 ^ k) off rank + 1 := by
          simp only [crNlevelsF, if_neg h1, if_pos hside, hhalf]
        have hL : crFoldLevelsF (f + 1) (2 ^ (k + 1)) off rank =
            (crPartner (2 ^ (k + 1)) off rank, crNmsg (2 ^ (k + 1)) off rank) ::
              crFoldLevelsF f (2 ^ k) off rank := by
          simp only [crFoldLevelsF, if_neg h1, if_pos hside, hhalf]
        have hrank : rank < off + 2 ^ k := by omega
        have hrec := ih f off rank hfuel hlo hrank
        refine ⟨by omega, ?_⟩
        intro pm hpm
        rw [hL] at hpm
        rcases List.mem_cons.mp hpm with heq | hmem
        · rw [heq, hmsg]
        · exact hrec.2 pm hmem
      · have hN : crNlevelsF (f + 1) (2 ^ (k + 1)) off rank =
            crNlevelsF f (2 ^ k) (rHalf (2 ^ (k + 1)) off) rank + 1 := by
          simp only [crNlevelsF, if_neg h1, if_neg hside, hsub]
        have hL : crFoldLevelsF (f + 1) (2 ^ (k + 1)) off rank =
            (crPartner (2 ^ (k + 1)) off rank, crNmsg (2 ^ (k + 1)) off rank) ::
              crFoldLevelsF f (2 ^ k) (rHalf (2 ^ (k + 1)) off) rank := by
          simp only [crFoldLevelsF, if_neg h1, if_neg hside, hsub]
        have hlo2 : rHalf (2 ^ (k + 1)) off ≤ rank := by omega
        have hhi2 : rank < rHalf (2 ^ (k + 1)) off + 2 ^ k := by
          rw [hrh]; omega
        have hrec := ih f (rHalf (2 ^ (k + 1)) off) rank hfuel hlo2 hhi2
        refine ⟨by omega, ?_⟩
        intro pm hpm
        rw [hL] at hpm
        rcases List.mem_cons.mp hpm with heq | hmem
        · rw [heq, hmsg]
        · exact hrec.2 pm hmem

/-! ## Claim theorems -/

/-- Claim C2 (amended): for every process count NP and every rank the
constructor builds at most ceil(log2(NP)) levels (the two schedules have
the same length, the level count of the first loop); rank 0 builds
exactly ceil(log2(NP)); and when NP is a power of two every rank builds
exactly ceil(log2(NP)) levels and every level has exactly one message
pair (Nmsg = 1 everywhere). -/
theorem claim_C2 (NP rank : Nat) (h : rank < NP) :
    (crFoldLevels NP rank).length = crNlevels NP rank ∧
    crNlevels NP rank ≤ Nat.clog 2 NP ∧
    crNlevels NP 0 = Nat.clog 2 NP ∧
    ∀ k : Nat, NP = 2 ^ k →
      crNlevels NP rank = Nat.clog 2 NP ∧ ∀ pm ∈ crFoldLevels NP rank, pm.2 = 1 := by
  refine ⟨crFoldLevelsF_length NP NP 0 rank, crNlevelsF_le_clog NP NP 0 rank le_rfl,
    crNlevelsF_rank_zero NP NP le_rfl, ?_⟩
  intro k hk
  subst hk
  have hp := crFold_pow2 k (2 ^ k) 0 rank le_rfl (Nat.zero_le rank) (by omega)
  refine ⟨?_, hp.2⟩
  rw [Nat.clog_pow 2 k (by norm_num)]
  exact hp.1

/-- Claim C2 counterexample: with NP = 3 the rank 2 process builds a
single level, not ceil(log2(3)) = 2; the level count is rank dependent. -/
theorem claim_C2_cex : crNlevels 3 2 ≠ Nat.clog 2 3 := by
  have h2 : Nat.clog 2 3 = 2 := by
    rw [← ceilLog2F_eq_clog 3 3 le_rfl]
    rfl
  rw [h2]
  decide

/-- Witness for claim C2 at NP = 4, rank 3. -/
theorem claim_C2_witness :
    crNlevels 4 3 = Nat.clog 2 4 ∧ ((crFoldLevels 4 3).getD 0 (0, 0)).2 = 1 := by
  have h := (claim_C2 4 3 (by norm_num)).2.2.2 2 (by norm_num)
  exact ⟨h.1, h.2 ((crFoldLevels 4 3).getD 0 (0, 0)) (by decide)⟩

/-- Claim C3: at every fold level with window (np, offset) the recorded
partner is the mirror np-1-(rank-offset)+offset; when np is odd the
boundary rank r_half-1 (the one whose mirror is itself) is redirected to
r_half with Nmsg = 0, and rank r_half receives two messages (Nmsg = 2),
the second one coming from rank r_half-1 (whose send partner it is). -/
theorem claim_C3 (np off rank : Nat) (h2 : 2 ≤ np) (hlo : off ≤ rank)
    (hhi : rank < off + np) :
    (crMirror np off rank ≠ rank →
      crPartner np off rank = crMirror np off rank ∧
      crNmsg np off rank = if np % 2 = 1 ∧ rank = rHalf np off then 2 else 1) ∧
    (crMirror np off rank = rank →
      np % 2 = 1 ∧ rank + 1 = rHalf np off ∧
      crPartner np off rank = rHalf np off ∧ crNmsg np off rank = 0) ∧
    (np % 2 = 1 →
      crNmsg np off (rHalf np off) = 2 ∧
      crPartner np off (rHalf np off - 1) = rHalf np off) := by
  refine ⟨?_, ?_, ?_⟩
  · intro hne
    constructor
    · unfold crPartner
      rw [if_neg hne]
    · unfold crNmsg
      rw [if_neg hne]
  · intro heq
    have harith : np % 2 = 1 ∧ rank + 1 = rHalf np off := by
      unfold crMirror at heq
      unfold rHalf
      omega
    refine ⟨harith.1, harith.2, ?_, ?_⟩
    · unfold crPartner
      rw [if_pos heq]
    · unfold crNmsg
      rw [if_pos heq]
  · intro hodd
    have hge3 : 3 ≤ np := by omega
    constructor
    · have hne : crMirror np off (rHalf np off) ≠ rHalf np off := by
        unfold crMirror rHalf
        omega
      unfold crNmsg
      rw [if_neg hne, if_pos ⟨hodd, rfl⟩]
    · have heq : crMirror np off (rHalf np off - 1) = rHalf np off - 1 := by
        unfold crMirror rHalf
        omega
      have hr : rHalf np off - 1 + 1 = rHalf np off := by
        unfold rHalf
        omega
      unfold crPartner
      rw [if_pos heq]

/-- Witness for claim C3 at np = 5, offset = 1. -/
theorem claim_C3_witness :
    crNmsg 5 1 (rHalf 5 1) = 2 ∧ crPartner 5 1 (rHalf 5 1 - 1) = rHalf 5 1 :=
  (claim_C3 5 1 1 (by norm_num) (by norm_num) (by norm_num)).2.2 (by norm_num)

/-- Claim C5: with a single process the constructor builds zero levels
and, for every field width, element type (the abstract value type α),
reduce operator (inside gatherFn) and direction, the Finish loop leaves
the halo buffer exactly equal to its input. -/
theorem claim_C5 (α : Type) (k : Nat) (trans : CrTrans) (rank : Nat)
    (NhM NhPM : Nat → Nat) (sh : Nat → List PNode)
    (gatherFn : CrLevel → List α → List α) (recv : Nat → List α) (halo : List α) :
    crNlevels 1 rank = 0 ∧
    crLevels 1 NhM NhPM sh rank = [] ∧
    (crFinish α k trans (NhPM rank) (NhM rank)
        ((crLevels 1 NhM NhPM sh rank).map Prod.fst)
        ((crLevels 1 NhM NhPM sh rank).map Prod.snd)
        gatherFn recv halo).result = halo := by
  refine ⟨rfl, rfl, ?_⟩
  cases trans <;> rfl

/-- Claim C6: direction selects both the schedule and the halo extents:
Start stages NhaloP rows forward and Nhalo rows transposed, Finish
drives levelsN forward and levelsT transposed, and the final copy-back
covers the opposite extent. -/
theorem claim_C6 (α : Type) (k : Nat) (NhP Nh : Nat) (lN lT : List CrLevel)
    (gatherFn : CrLevel → List α → List α) (recv : Nat → List α) (halo : List α) :
    crStartRows CrTrans.NoTrans NhP Nh = NhP ∧
    crStartRows CrTrans.Trans NhP Nh = Nh ∧
    (crFinish α k CrTrans.NoTrans NhP Nh lN lT gatherFn recv halo).stagedRows = NhP ∧
    (crFinish α k CrTrans.Trans NhP Nh lN lT gatherFn recv halo).stagedRows = Nh ∧
    (crFinish α k CrTrans.NoTrans NhP Nh lN lT gatherFn recv halo).levels = lN ∧
    (crFinish α k CrTrans.Trans NhP Nh lN lT gatherFn recv halo).levels = lT ∧
    (crFinish α k CrTrans.NoTrans NhP Nh lN lT gatherFn recv halo).copyBackRows = Nh ∧
    (crFinish α k CrTrans.Trans NhP Nh lN lT gatherFn recv halo).copyBackRows = NhP :=
  ⟨rfl, rfl, rfl, rfl, rfl, rfl, rfl, rfl⟩

/-- Claim C7: starting from a fresh exchange object, after any sequence
of AllocBuffer calls the send capacity covers NsendMax times every byte
size requested so far and each halo buffer covers NrecvMax times it;
capacities never decrease across a call, and a capacity changes only
when the requested footprint exceeded the previous capacity. -/
theorem claim_C7 (NsMax NrMax : Nat) (szs : List Nat) :
    (∀ nb ∈ szs,
      NsMax * nb ≤ (szs.foldl (fun st x => AllocBuffer NsMax NrMax x st) crBufInit).sendCap ∧
      NrMax * nb ≤ (szs.foldl (fun st x => AllocBuffer NsMax NrMax x st) crBufInit).buf0Cap ∧
      NrMax * nb ≤ (szs.foldl (fun st x => AllocBuffer NsMax NrMax x st) crBufInit).buf1Cap) ∧
    (∀ (s : CrBufState) (nb : Nat), s.buf0Cap = s.buf1Cap →
      s.sendCap ≤ (AllocBuffer NsMax NrMax nb s).sendCap ∧
      s.buf0Cap ≤ (AllocBuffer NsMax NrMax nb s).buf0Cap ∧
      s.buf1Cap ≤ (AllocBuffer NsMax NrMax nb s).buf1Cap) ∧
    (∀ (s : CrBufState) (nb : Nat),
      ((AllocBuffer NsMax NrMax nb s).sendCap ≠ s.sendCap → s.sendCap < NsMax * nb) ∧
      ((AllocBuffer NsMax NrMax nb s).buf0Cap ≠ s.buf0Cap → s.buf0Cap < NrMax * nb) ∧
      ((AllocBuffer NsMax NrMax nb s).buf1Cap ≠ s.buf1Cap → s.buf0Cap < NrMax * nb)) := by
  refine ⟨fun nb hnb => foldAlloc_covers NsMax NrMax szs crBufInit rfl nb hnb,
    fun s nb hp => allocBuffer_mono NsMax NrMax nb s hp, fun s nb => ?_⟩
  rw [allocBuffer_sendCap, allocBuffer_buf0Cap, allocBuffer_buf1Cap]
  refine ⟨?_, ?_, ?_⟩ <;> split <;> omega

/-- Witness for claim C7 with the width sequence 1, 8, 1 of the spec. -/
theorem claim_C7_witness :
    2 * 8 ≤ (([1, 8, 1] : List Nat).foldl
        (fun st x => AllocBuffer 2 3 x st) crBufInit).sendCap ∧
    3 * 8 ≤ (([1, 8, 1] : List Nat).foldl
        (fun st x => AllocBuffer 2 3 x st) crBufInit).buf0Cap ∧
    3 * 8 ≤ (([1, 8, 1] : List Nat).foldl
        (fun st x => AllocBuffer 2 3 x st) crBufInit).buf1Cap :=
  (claim_C7 2 3 [1, 8, 1]).1 8 (by decide)

/-- Claim C8 counterexample: a malformed descriptor list (missing and
inconsistent group ids) is accepted by setup, which returns a node list
instead of failing; the constructor has no validation or error path. -/
theorem claim_C8_cex :
    specMalformedShared demoBadShared ∧ crSetup 0 1 1 demoBadShared ≠ none :=
  ⟨by unfold specMalformedShared; decide, by decide⟩

/-- Claim C8 (amended): schedule construction performs no validation of
the descriptor grouping; setup succeeds on every input, including
inconsistent or missing baseIds, and a schedule is always produced. -/
theorem claim_C8_amended (rank Nhalo NhaloP : Nat) (shared : List PNode) :
    (crSetup rank Nhalo NhaloP shared).isSome = true := rfl

theorem sendCountN_le (l : List PNode) : sendCountN l ≤ sendCountT l :=
  List.length_filter_le posNode (groupFirsts l)

theorem getD_mem {α : Type} : ∀ (l : List α) (i : Nat) (d : α), i < l.length →
    l.getD i d ∈ l := by
  intro l
  induction l with
  | nil => intro i d h; simp at h
  | cons x xs ih =>
    intro i d h
    cases i with
    | zero => simp [List.getD]
    | succ i =>
      rw [List.getD_cons_succ]
      exact List.mem_cons_of_mem x (ih i d (by simpa using h))

theorem le_foldl_max {β : Type} (f : β → Nat) :
    ∀ (l : List β) (a : Nat), a ≤ l.foldl (fun m y => max m (f y)) a := by
  intro l
  induction l with
  | nil => intro a; exact le_refl a
  | cons x xs ih =>
    intro a
    exact le_trans (le_max_left a (f x)) (ih (max a (f x)))

theorem mem_le_foldl_max {β : Type} (f : β → Nat) :
    ∀ (l : List β) (a : Nat) (x : β), x ∈ l → f x ≤ l.foldl (fun m y => max m (f y)) a := by
  intro l
  induction l with
  | nil => intro a x hx; exact absurd hx (List.not_mem_nil x)
  | cons y ys ih =>
    intro a x hx
    simp only [List.foldl_cons]
    rcases List.mem_cons.mp hx with heq | hm
    · subst heq
      exact le_trans (le_max_right a (f x)) (le_foldl_max f ys (max a (f x)))
    · exact ih (max a (f y)) x hm

theorem groupSign_pos_iff (g : List PNode) : 0 < groupSign g ↔ hasPos g = true := by
  unfold groupSign hasPos
  cases hf : g.find? posNode with
  | none =>
    constructor
    · intro h
      exact absurd h (by norm_num)
    · intro h
      rw [List.any_eq_true] at h
      obtain ⟨x, hx, hpx⟩ := h
      exact absurd hpx (List.find?_eq_none.mp hf x hx)
  | some p =>
    have hp : posNode p = true := List.find?_some hf
    have hmem : p ∈ g := List.mem_of_find?_eq_some hf
    constructor
    · intro _
      rw [List.any_eq_true]
      exact ⟨p, hmem, hp⟩
    · intro _
      unfold posNode at hp
      exact of_decide_eq_true hp

theorem assignGroup_counts (Nh : Nat) : ∀ (runs : List (List PNode)) (s : AssignState),
    (runs.foldl (assignGroup Nh) s).extN = s.extN + countNewPos Nh runs ∧
    (runs.foldl (assignGroup Nh) s).extT = s.extT + countNewNeg Nh runs := by
  intro runs
  induction runs with
  | nil => intro s; simp [countNewPos, countNewNeg]
  | cons g rest ih =>
    intro s
    simp only [List.foldl_cons]
    have hrec := ih (assignGroup Nh s g)
    cases g with
    | nil =>
      have hNb : isNewGroup Nh ([] : List PNode) = false := rfl
      have hcP : countNewPos Nh (([] : List PNode) :: rest) = countNewPos Nh rest := by
        simp [countNewPos, List.filter_cons, hNb]
      have hcN : countNewNeg Nh (([] : List PNode) :: rest) = countNewNeg Nh rest := by
        simp [countNewNeg, List.filter_cons, hNb]
      have hstep : assignGroup Nh s [] = s := rfl
      rw [hstep, hcP, hcN]
      exact hrec
    | cons x gs =>
      by_cases hnew : (Nh : Int) ≤ x.newId ∨ x.newId = -1
      · have hNb : isNewGroup Nh (x :: gs) = true := by
          unfold isNewGroup
          exact decide_eq_true hnew
        by_cases hpos : 0 < groupSign (x :: gs)
        · have hPb : hasPos (x :: gs) = true := (groupSign_pos_iff (x :: gs)).mp hpos
          have hstepN : (assignGroup Nh s (x :: gs)).extN = s.extN + 1 := by
            simp only [assignGroup, if_pos hnew, if_pos hpos]
          have hstepT : (assignGroup Nh s (x :: gs)).extT = s.extT := by
            simp only [assignGroup, if_pos hnew, if_pos hpos]
          have hcP : countNewPos Nh ((x :: gs) :: rest) = countNewPos Nh rest + 1 := by
            simp [countNewPos, List.filter_cons, hNb, hPb]
          have hcN : countNewNeg Nh ((x :: gs) :: rest) = countNewNeg Nh rest := by
            simp [countNewNeg, List.filter_cons, hNb, hPb]
          rw [hcP, hcN, hrec.1, hrec.2, hstepN, hstepT]
          omega
        · have hPb : hasPos (x :: gs) = false := by
            cases hh : hasPos (x :: gs) with
            | true => exact absurd ((groupSign_pos_iff (x :: gs)).mpr hh) hpos
            | false => rfl
          have hstepN : (assignGroup Nh s (x :: gs)).extN = s.extN := by
            simp only [assignGroup, if_pos hnew, if_neg hpos]
          have hstepT : (assignGroup Nh s (x :: gs)).extT = s.extT + 1 := by
            simp only [assignGroup, if_pos hnew, if_neg hpos]
          have hcP : countNewPos Nh ((x :: gs) :: rest) = countNewPos Nh rest := by
            simp [countNewPos, List.filter_cons, hNb, hPb]
          have hcN : countNewNeg Nh ((x :: gs) :: rest) = countNewNeg Nh rest + 1 := by
            simp [countNewNeg, List.filter_cons, hNb, hPb]
          rw [hcP, hcN, hrec.1, hrec.2, hstepN, hstepT]
          omega
      · have hNb : isNewGroup Nh (x :: gs) = false := by
          unfold isNewGroup
          exact decide_eq_false hnew
        have hstepN : (assignGroup Nh s (x :: gs)).extN = s.extN := by
          simp only [assignGroup, if_neg hnew]
        have hstepT : (assignGroup Nh s (x :: gs)).extT = s.extT := by
          simp only [assignGroup, if_neg hnew]
        have hcP : countNewPos Nh ((x :: gs) :: rest) = countNewPos Nh rest := by
          simp [countNewPos, List.filter_cons, hNb]
        have hcN : countNewNeg Nh ((x :: gs) :: rest) = countNewNeg Nh rest := by
          simp [countNewNeg, List.filter_cons, hNb]
        rw [hcP, hcN, hrec.1, hrec.2, hstepN, hstepT]
        exact ⟨rfl, rfl⟩

theorem renumber_le (Nh : Nat) (l : List PNode) :
    (renumber Nh l).extN ≤ (renumber Nh l).extT := by
  unfold renumber
  dsimp only
  have h := assignGroup_counts Nh (groupRuns (sortByBase l))
    { extN := Nh, extT := Nh + countNewPos Nh (groupRuns (sortByBase l)),
      imap := fun _ => 0, acc := [] }
  rw [h.1, h.2]
  change Nh + countNewPos Nh (groupRuns (sortByBase l)) ≤
    Nh + countNewPos Nh (groupRuns (sortByBase l)) + countNewNeg Nh (groupRuns (sortByBase l))
  omega

theorem roundCore_state_le (size Nh NhP np off r : Nat) (σ : Nat → RankState) :
    (crRoundCore size Nh NhP np off r σ).2.extN ≤ (crRoundCore size Nh NhP np off r σ).2.extT := by
  dsimp only [crRoundCore]
  exact renumber_le Nh _

theorem sigma_ext_le (size : Nat) (NhM NhPM : Nat → Nat) (sh : Nat → List PNode) :
    ∀ (t r : Nat), (crSigma size NhM NhPM sh t r).extN ≤ (crSigma size NhM NhPM sh t r).extT := by
  intro t
  induction t with
  | zero => intro r; exact le_of_eq rfl
  | succ t ih =>
    intro r
    have hstep : crSigma size NhM NhPM sh (t + 1) r =
        (crRound size NhM NhPM t (crSigma size NhM NhPM sh t) r).2 := rfl
    rw [hstep]
    unfold crRound
    dsimp only
    split
    · exact ih r
    · exact roundCore_state_le size (NhM r) (NhPM r) _ _ r (crSigma size NhM NhPM sh t)

theorem crRoundCore_ineq (size Nh NhP np off r : Nat) (σ : Nat → RankState)
    (h : (σ r).extN ≤ (σ r).extT) :
    (crRoundCore size Nh NhP np off r σ).1.1.Nsend ≤
      (crRoundCore size Nh NhP np off r σ).1.2.Nsend ∧
    (crRoundCore size Nh NhP np off r σ).1.1.recvOffset +
        (crRoundCore size Nh NhP np off r σ).1.1.Nrecv0 +
        (crRoundCore size Nh NhP np off r σ).1.1.Nrecv1 ≤
      (crRoundCore size Nh NhP np off r σ).1.2.recvOffset +
        (crRoundCore size Nh NhP np off r σ).1.2.Nrecv0 +
        (crRoundCore size Nh NhP np off r σ).1.2.Nrecv1 := by
  dsimp only [crRoundCore]
  exact ⟨sendCountN_le _, add_le_add (add_le_add h (sendCountN_le _)) (sendCountN_le _)⟩

/-- Claim C9: at every level of a constructed schedule the forward
(levelsN) traffic is bounded by the transposed (levelsT) traffic, both
for the send count and for the receive footprint
recvOffset + Nrecv0 + Nrecv1; consequently NsendMax and NrecvMax, the
maxima taken over the transposed schedule alone, bound both directions. -/
theorem claim_C9 (size : Nat) (NhM NhPM : Nat → Nat) (sh : Nat → List PNode)
    (r i : Nat) (h : i < (crLevels size NhM NhPM sh r).length) :
    ((crLevels size NhM NhPM sh r).getD i dfltPair).1.Nsend ≤
      ((crLevels size NhM NhPM sh r).getD i dfltPair).2.Nsend ∧
    ((crLevels size NhM NhPM sh r).getD i dfltPair).1.recvOffset +
        ((crLevels size NhM NhPM sh r).getD i dfltPair).1.Nrecv0 +
        ((crLevels size NhM NhPM sh r).getD i dfltPair).1.Nrecv1 ≤
      ((crLevels size NhM NhPM sh r).getD i dfltPair).2.recvOffset +
        ((crLevels size NhM NhPM sh r).getD i dfltPair).2.Nrecv0 +
        ((crLevels size NhM NhPM sh r).getD i dfltPair).2.Nrecv1 ∧
    ((crLevels size NhM NhPM sh r).getD i dfltPair).1.Nsend ≤
      crNsendMax (crLevels size NhM NhPM sh r) ∧
    ((crLevels size NhM NhPM sh r).getD i dfltPair).2.Nsend ≤
      crNsendMax (crLevels size NhM NhPM sh r) ∧
    ((crLevels size NhM NhPM sh r).getD i dfltPair).1.recvOffset +
        ((crLevels size NhM NhPM sh r).getD i dfltPair).1.Nrecv0 +
        ((crLevels size NhM NhPM sh r).getD i dfltPair).1.Nrecv1 ≤
      crNrecvMax (crLevels size NhM NhPM sh r) ∧
    ((crLevels size NhM NhPM sh r).getD i dfltPair).2.recvOffset +
        ((crLevels size NhM NhPM sh r).getD i dfltPair).2.Nrecv0 +
        ((crLevels size NhM NhPM sh r).getD i dfltPair).2.Nrecv1 ≤
      crNrecvMax (crLevels size NhM NhPM sh r) := by
  have hmem : (crLevels size NhM NhPM sh r).getD i dfltPair ∈ crLevels size NhM NhPM sh r :=
    getD_mem _ i dfltPair h
  obtain ⟨t, -, ht⟩ := List.mem_filterMap.mp hmem
  have hinv := sigma_ext_le size NhM NhPM sh t r
  unfold crLevelsAt crRound at ht
  dsimp only at ht
  by_cases hw : (crWindowAt size r t).1 ≤ 1
  · rw [if_pos hw] at ht
    simp at ht
  · rw [if_neg hw] at ht
    have hpr : (crLevels size NhM NhPM sh r).getD i dfltPair =
        (crRoundCore size (NhM r) (NhPM r) (crWindowAt size r t).1
          (crWindowAt size r t).2 r (crSigma size NhM NhPM sh t)).1 :=
      (Option.some_inj.mp ht).symm
    have hineq := crRoundCore_ineq size (NhM r) (NhPM r) (crWindowAt size r t).1
      (crWindowAt size r t).2 r (crSigma size NhM NhPM sh t) hinv
    rw [← hpr] at hineq
    have h2a : ((crLevels size NhM NhPM sh r).getD i dfltPair).2.Nsend ≤
        crNsendMax (crLevels size NhM NhPM sh r) :=
      mem_le_foldl_max (fun p => p.2.Nsend) (crLevels size NhM NhPM sh r) 0 _ hmem
    have h2b : ((crLevels size NhM NhPM sh r).getD i dfltPair).2.recvOffset +
          ((crLevels size NhM NhPM sh r).getD i dfltPair).2.Nrecv0 +
          ((crLevels size NhM NhPM sh r).getD i dfltPair).2.Nrecv1 ≤
        crNrecvMax (crLevels size NhM NhPM sh r) :=
      mem_le_foldl_max (fun p => p.2.recvOffset + p.2.Nrecv0 + p.2.Nrecv1)
        (crLevels size NhM NhPM sh r) 0 _ hmem
    exact ⟨hineq.1, hineq.2, le_trans hineq.1 h2a, h2a, le_trans hineq.2 h2b, h2b⟩

/-- Witness for claim C9 on the two-rank demonstration topology. -/
theorem claim_C9_witness :
    ((crLevels 2 demoNh demoNhP demoSh 0).getD 0 dfltPair).1.Nsend ≤
      ((crLevels 2 demoNh demoNhP demoSh 0).getD 0 dfltPair).2.Nsend ∧
    ((crLevels 2 demoNh demoNhP demoSh 0).getD 0 dfltPair).1.recvOffset +
        ((crLevels 2 demoNh demoNhP demoSh 0).getD 0 dfltPair).1.Nrecv0 +
        ((crLevels 2 demoNh demoNhP demoSh 0).getD 0 dfltPair).1.Nrecv1 ≤
      ((crLevels 2 demoNh demoNhP demoSh 0).getD 0 dfltPair).2.recvOffset +
        ((crLevels 2 demoNh demoNhP demoSh 0).getD 0 dfltPair).2.Nrecv0 +
        ((crLevels 2 demoNh demoNhP demoSh 0).getD 0 dfltPair).2.Nrecv1 ∧
    ((crLevels 2 demoNh demoNhP demoSh 0).getD 0 dfltPair).1.Nsend ≤
      crNsendMax (crLevels 2 demoNh demoNhP demoSh 0) ∧
    ((crLevels 2 demoNh demoNhP demoSh 0).getD 0 dfltPair).2.Nsend ≤
      crNsendMax (crLevels 2 demoNh demoNhP demoSh 0) ∧
    ((crLevels 2 demoNh demoNhP demoSh 0).getD 0 dfltPair).1.recvOffset +
        ((crLevels 2 demoNh demoNhP demoSh 0).getD 0 dfltPair).1.Nrecv0 +
        ((crLevels 2 demoNh demoNhP demoSh 0).getD 0 dfltPair).1.Nrecv1 ≤
      crNrecvMax (crLevels 2 demoNh demoNhP demoSh 0) ∧
    ((crLevels 2 demoNh demoNhP demoSh 0).getD 0 dfltPair).2.recvOffset +
        ((crLevels 2 demoNh demoNhP demoSh 0).getD 0 dfltPair).2.Nrecv0 +
        ((crLevels 2 demoNh demoNhP demoSh 0).getD 0 dfltPair).2.Nrecv1 ≤
      crNrecvMax (crLevels 2 demoNh demoNhP demoSh 0) :=
  claim_C9 2 demoNh demoNhP demoSh 0 0 (by decide)

theorem foldStep_le (rank : Nat) (w : Nat × Nat) : (foldStep rank w).1 ≤ w.1 := by
  unfold foldStep
  split
  · exact le_refl _
  · split <;> dsimp only <;> omega

theorem foldStep_lt (rank : Nat) (w : Nat × Nat) (h2 : 2 ≤ w.1) :
    (foldStep rank w).1 < w.1 := by
  unfold foldStep
  rw [if_neg (by omega)]
  split <;> dsimp only <;> omega

theorem win_anti (size r : Nat) : ∀ (t s : Nat), s ≤ t →
    (crWindowAt size r t).1 ≤ (crWindowAt size r s).1 := by
  intro t
  induction t with
  | zero =>
    intro s h
    have h0 : s = 0 := Nat.le_zero.mp h
    subst h0
    exact le_refl _
  | succ t ih =>
    intro s h
    rcases Nat.lt_or_ge s (t + 1) with hlt | hge
    · exact le_trans (foldStep_le r (crWindowAt size r t)) (ih s (by omega))
    · have hs : s = t + 1 := by omega
      subst hs
      exact le_refl _

theorem win_lt_size (size r t : Nat) (ht : 1 ≤ t) (h2 : 2 ≤ (crWindowAt size r t).1) :
    (crWindowAt size r t).1 < size := by
  have h00 : (crWindowAt size r 0).1 = size := rfl
  have hup : (crWindowAt size r t).1 ≤ (crWindowAt size r 1).1 := win_anti size r t 1 ht
  have hsz : 2 ≤ (crWindowAt size r 0).1 :=
    le_trans h2 (win_anti size r t 0 (Nat.zero_le t))
  have h01 : (crWindowAt size r 1).1 < (crWindowAt size r 0).1 :=
    foldStep_lt r (crWindowAt size r 0) hsz
  omega

theorem gatherRowT_self (Nh ro : Nat) (imap : Nat → Int) (locF recvF : List PNode)
    (n : Nat) (h : n < Nh) : (n : Int) ∈ gatherRowT Nh ro imap locF recvF n := by
  unfold gatherRowT
  rw [if_pos h]
  simp

theorem gatherRowN_self_first (NhP Nh ro : Nat) (imap : Nat → Int)
    (locF recvF : List PNode) (n : Nat) (h : n < NhP) :
    (n : Int) ∈ gatherRowN true NhP Nh ro imap locF recvF n := by
  unfold gatherRowN
  simp [h]

theorem gatherRowN_self_later (NhP Nh ro : Nat) (imap : Nat → Int)
    (locF recvF : List PNode) (n : Nat) (h : n < Nh) :
    (n : Int) ∈ gatherRowN false NhP Nh ro imap locF recvF n := by
  unfold gatherRowN
  simp [h]

/-- Claim C10: every embedded reduction operator carries the surviving
halo values through the buffer rotation: in the transposed operator each
row n < Nhalo contains the identity column n, and in the forward
operator each row n < NhaloP does at the first level (np = size) and
each row n < Nhalo does at every later level. -/
theorem claim_C10 (size : Nat) (NhM NhPM : Nat → Nat) (sh : Nat → List PNode)
    (t r : Nat) (h : (crLevelsAt size NhM NhPM sh t r).isSome = true) :
    (∀ n, n < NhM r →
      ((n : Int) ∈ ((crLevelsAt size NhM NhPM sh t r).getD dfltPair).2.gatherRow n)) ∧
    (t = 0 → ∀ n, n < NhPM r →
      ((n : Int) ∈ ((crLevelsAt size NhM NhPM sh t r).getD dfltPair).1.gatherRow n)) ∧
    (t ≠ 0 → ∀ n, n < NhM r →
      ((n : Int) ∈ ((crLevelsAt size NhM NhPM sh t r).getD dfltPair).1.gatherRow n)) := by
  unfold crLevelsAt crRound at h ⊢
  dsimp only at h ⊢
  by_cases hw : (crWindowAt size r t).1 ≤ 1
  · rw [if_pos hw] at h
    simp at h
  · rw [if_neg hw]
    simp only [Option.getD_some]
    dsimp only [crRoundCore]
    refine ⟨?_, ?_, ?_⟩
    · intro n hn
      exact gatherRowT_self _ _ _ _ _ n hn
    · intro ht0 n hn
      subst ht0
      have hnp : (crWindowAt size r 0).1 = size := rfl
      rw [show decide ((crWindowAt size r 0).1 = size) = true from decide_eq_true hnp]
      exact gatherRowN_self_first _ _ _ _ _ _ n hn
    · intro ht0 n hn
      have hlt : (crWindowAt size r t).1 < size := win_lt_size size r t (by omega) (by omega)
      rw [show decide ((crWindowAt size r t).1 = size) = false from
        decide_eq_false (by omega)]
      exact gatherRowN_self_later _ _ _ _ _ _ n hn

/-- Witness for claim C10 on the two-rank demonstration topology at the
first level of rank 0. -/
theorem claim_C10_witness :
    (0 : Int) ∈ ((crLevelsAt 2 demoNh demoNhP demoSh 0 0).getD dfltPair).2.gatherRow 0 ∧
    (0 : Int) ∈ ((crLevelsAt 2 demoNh demoNhP demoSh 0 0).getD dfltPair).1.gatherRow 0 :=
  ⟨(claim_C10 2 demoNh demoNhP demoSh 0 0 (by decide)).1 0 (by decide),
   (claim_C10 2 demoNh demoNhP demoSh 0 0 (by decide)).2.1 rfl 0 (by decide)⟩

theorem addToRuns_shape (z : PNode) (rs : List (List PNode)) :
    ∃ g t, addToRuns z rs = (z :: g) :: t := by
  cases rs with
  | nil => exact ⟨[], [], rfl⟩
  | cons g0 t =>
    cases g0 with
    | nil => exact ⟨[], t, rfl⟩
    | cons y g1 =>
      by_cases hk : pKey z = pKey y
      · exact ⟨y :: g1, t, by simp [addToRuns, hk]⟩
      · exact ⟨[], (y :: g1) :: t, by simp [addToRuns, hk]⟩

theorem groupRuns_shape (z : PNode) (zs : List PNode) :
    ∃ g t, groupRuns (z :: zs) = (z :: g) :: t :=
  addToRuns_shape z (groupRuns zs)

theorem prepend_run : ∀ (g : List PNode) (k : Nat) (m : List PNode),
    (∀ x ∈ g, pKey x = k) → g ≠ [] → FirstNe k m →
    g.foldr addToRuns (groupRuns m) = g :: groupRuns m := by
  intro g
  induction g with
  | nil => intro k m _ hne _; exact absurd rfl hne
  | cons a g2 ih =>
    intro k m hkeys hne hfirst
    cases g2 with
    | nil =>
      simp only [List.foldr_cons, List.foldr_nil]
      cases hm : m with
      | nil => subst hm; rfl
      | cons z zs =>
        subst hm
        obtain ⟨g3, t3, hgr⟩ := groupRuns_shape z zs
        rw [hgr]
        have hka : pKey a = k := hkeys a (List.mem_cons_self a [])
        have hkz : pKey z ≠ k := hfirst z zs rfl
        have hne2 : pKey a ≠ pKey z := by
          rw [hka]
          exact fun hc => hkz hc.symm
        simp [addToRuns, hne2]
    | cons b g3 =>
      have hkeys2 : ∀ x ∈ b :: g3, pKey x = k :=
        fun x hx => hkeys x (List.mem_cons_of_mem a hx)
      have hrec := ih k m hkeys2 (by simp) hfirst
      have hka : pKey a = k := hkeys a (List.mem_cons_self a (b :: g3))
      have hkb : pKey b = k := hkeys b (List.mem_cons_of_mem a (List.mem_cons_self b g3))
      have heq : pKey a = pKey b := by rw [hka, hkb]
      simp only [List.foldr_cons] at hrec ⊢
      rw [hrec]
      simp [addToRuns, heq]

theorem flatten_first (k : Nat) : ∀ (rs : List (List PNode)),
    RunsWFFrom (some k) rs → FirstNe k rs.flatten := by
  intro rs hwf
  cases rs with
  | nil =>
    intro z zs hz
    simp at hz
  | cons g t =>
    obtain ⟨kk, ⟨hne, hkeys⟩, hprev, -⟩ := hwf
    intro z zs hz
    cases g with
    | nil => exact absurd rfl hne
    | cons a g0 =>
      simp only [List.flatten_cons, List.cons_append] at hz
      have hza : a = z := by injection hz
      subst hza
      have hka : pKey a = kk := hkeys a (List.mem_cons_self a g0)
      intro hc
      apply hprev
      rw [hka] at hc
      rw [hc]

theorem groupRuns_flatten : ∀ (rs : List (List PNode)) (prev : Option Nat),
    RunsWFFrom prev rs → groupRuns rs.flatten = rs := by
  intro rs
  induction rs with
  | nil => intro prev _; rfl
  | cons g t ih =>
    intro prev hwf
    obtain ⟨k, ⟨hne, hkeys⟩, hprev, hrest⟩ := hwf
    have hstep : groupRuns ((g :: t).flatten) = g.foldr addToRuns (groupRuns t.flatten) := by
      simp only [List.flatten_cons]
      unfold groupRuns
      rw [List.foldr_append]
    rw [hstep, prepend_run g k t.flatten hkeys hne (flatten_first k t hrest),
      ih (some k) hrest]

theorem runWF_propagate (g : List PNode) (k : Nat) (h : RunWF g k) :
    RunWF (propagateGroup g) k := by
  obtain ⟨hne, hkeys⟩ := h
  unfold propagateGroup
  cases hf : g.find? posNode with
  | none => exact ⟨hne, hkeys⟩
  | some p =>
    constructor
    · intro hc
      exact hne (List.map_eq_nil_iff.mp hc)
    · intro y hy
      obtain ⟨x, hx, hxy⟩ := List.mem_map.mp hy
      rw [← hxy]
      exact hkeys x hx

theorem runsWF_map_propagate : ∀ (rs : List (List PNode)) (prev : Option Nat),
    RunsWFFrom prev rs → RunsWFFrom prev (rs.map propagateGroup) := by
  intro rs
  induction rs with
  | nil => intro prev _; trivial
  | cons g t ih =>
    intro prev hwf
    obtain ⟨k, hrun, hprev, hrest⟩ := hwf
    exact ⟨k, runWF_propagate g k hrun, hprev, ih (some k) hrest⟩

theorem addToRuns_wf (x : PNode) (rs : List (List PNode)) (h : RunsWFFrom none rs) :
    RunsWFFrom none (addToRuns x rs) := by
  cases rs with
  | nil =>
    refine ⟨pKey x, ⟨by simp, ?_⟩, by simp, trivial⟩
    intro z hz
    rw [List.mem_singleton.mp hz]
  | cons g t =>
    obtain ⟨k, ⟨hne, hkeys⟩, -, hrest⟩ := h
    cases g with
    | nil => exact absurd rfl hne
    | cons y g0 =>
      have hky : pKey y = k := hkeys y (List.mem_cons_self y g0)
      by_cases hk : pKey x = pKey y
      · simp only [addToRuns, if_pos hk]
        refine ⟨k, ⟨by simp, ?_⟩, by simp, hrest⟩
        intro z hz
        rcases List.mem_cons.mp hz with hz1 | hz2
        · rw [hz1, hk, hky]
        · exact hkeys z hz2
      · simp only [addToRuns, if_neg hk]
        refine ⟨pKey x, ⟨by simp, ?_⟩, by simp, k, ⟨hne, hkeys⟩, ?_, hrest⟩
        · intro z hz
          rw [List.mem_singleton.mp hz]
        · intro hc
          apply hk
          have : pKey x = k := Option.some_inj.mp hc
          rw [this, hky]

theorem groupRuns_wf (l : List PNode) : RunsWFFrom none (groupRuns l) := by
  induction l with
  | nil => trivial
  | cons x xs ih => exact addToRuns_wf x (groupRuns xs) ih

theorem propagateGroup_idem (g : List PNode) :
    propagateGroup (propagateGroup g) = propagateGroup g := by
  cases hf : g.find? posNode with
  | none =>
    have h1 : propagateGroup g = g := by
      unfold propagateGroup
      rw [hf]
    rw [h1]
    exact h1
  | some p =>
    have hp : posNode p = true := List.find?_some hf
    have h1 : propagateGroup g = g.map (fun y => { y with sign := p.sign }) := by
      unfold propagateGroup
      rw [hf]
    rw [h1]
    cases g with
    | nil => rfl
    | cons a as =>
      have hfa : posNode ({ a with sign := p.sign } : PNode) = true := hp
      have hfind : ((a :: as).map (fun y => { y with sign := p.sign })).find? posNode =
          some ({ a with sign := p.sign } : PNode) := by
        simp only [List.map_cons]
        exact List.find?_cons_of_pos _ hfa
      unfold propagateGroup
      rw [hfind]
      dsimp only
      rw [List.map_map]
      rfl

theorem map_propagate_idem : ∀ (rs : List (List PNode)),
    (rs.map propagateGroup).map propagateGroup = rs.map propagateGroup := by
  intro rs
  induction rs with
  | nil => rfl
  | cons g t ih =>
    simp only [List.map_cons]
    rw [propagateGroup_idem, ih]

/-- Claim C4: the sign-propagation pass works group by group on the runs
of equal abs(baseId): a group with a positive member ends with every
member carrying that (first) positive sign, a group without one is left
unchanged, and the pass is idempotent. -/
theorem claim_C4 (l : List PNode) :
    signPropagate (signPropagate l) = signPropagate l ∧
    signPropagate l = ((groupRuns l).map propagateGroup).flatten ∧
    ∀ g ∈ groupRuns l,
      ((∃ x ∈ g, 0 < x.sign) →
        ∃ s : Int, 0 < s ∧ (∃ x ∈ g, x.sign = s ∧ 0 < x.sign) ∧
          ∀ y ∈ propagateGroup g, y.sign = s) ∧
      ((∀ x ∈ g, x.sign ≤ 0) → propagateGroup g = g) := by
  refine ⟨?_, rfl, ?_⟩
  · have hwf : RunsWFFrom none ((groupRuns l).map propagateGroup) :=
      runsWF_map_propagate (groupRuns l) none (groupRuns_wf l)
    have hgr : groupRuns (signPropagate l) = (groupRuns l).map propagateGroup :=
      groupRuns_flatten ((groupRuns l).map propagateGroup) none hwf
    show ((groupRuns (signPropagate l)).map propagateGroup).flatten = signPropagate l
    rw [hgr, map_propagate_idem]
    rfl
  · intro g hg
    constructor
    · intro hex
      cases hf : g.find? posNode with
      | none =>
        exfalso
        obtain ⟨x, hx, hpos⟩ := hex
        apply List.find?_eq_none.mp hf x hx
        unfold posNode
        exact decide_eq_true hpos
      | some p =>
        have hp : posNode p = true := List.find?_some hf
        have hpos : 0 < p.sign := of_decide_eq_true hp
        refine ⟨p.sign, hpos, ⟨p, List.mem_of_find?_eq_some hf, rfl, hpos⟩, ?_⟩
        intro y hy
        unfold propagateGroup at hy
        rw [hf] at hy
        obtain ⟨x, hx, hxy⟩ := List.mem_map.mp hy
        rw [← hxy]
    · intro hall
      unfold propagateGroup
      have hf : g.find? posNode = none := by
        rw [List.find?_eq_none]
        intro x hx
        unfold posNode
        simp only [decide_eq_true_eq]
        have := hall x hx
        omega
      rw [hf]

/-- Witness for claim C4 on the demonstration sign groups: the pass is
idempotent there and the all-negative group 9 is left unchanged. -/
theorem claim_C4_witness :
    signPropagate (signPropagate demoSigns) = signPropagate demoSigns ∧
    propagateGroup ((groupRuns demoSigns).getD 1 []) = (groupRuns demoSigns).getD 1 [] := by
  have h := claim_C4 demoSigns
  exact ⟨h.1, (h.2.2 ((groupRuns demoSigns).getD 1 []) (by decide)).2 (by decide)⟩
